import Mathlib

/-!
Verification of the configuration-merge and license-markup algorithms of the
UploadWizard extension.

The PHP side (src/includes/Config.php) works on PHP arrays: ordered finite
maps whose keys are integers or strings and whose values are scalars or
nested arrays.  We embed a PHP array as an ordered association list
`List (Key × Val)`.  The JS side (src/resources/uw.LicenseGroup.js) works on
plain strings, string lists and string-keyed objects.
-/

namespace UploadWizard

/-- A PHP array key: an integer or a string. -/
inductive Key where
  | int : Int → Key
  | str : String → Key
deriving DecidableEq, Repr

/-- A PHP value: a scalar (null / bool / int / string) or a nested array,
an ordered list of key–value entries. -/
inductive Val where
  | null : Val
  | bool : Bool → Val
  | int : Int → Val
  | str : String → Val
  | arr : List (Key × Val) → Val
deriving Repr

/-- A PHP array, as an ordered association list. -/
abbrev PArr := List (Key × Val)

/-- `array_key_exists($k, $a)`. -/
def keyExists (k : Key) (a : PArr) : Bool :=
  a.any fun p => p.1 == k

/-- `$a[$k]`: the value at the first entry with key `k`. -/
def lookupVal (k : Key) (a : PArr) : Option Val :=
  (a.find? fun p => p.1 == k).map Prod.snd

/-- `Config::isAssoc` (src/includes/Config.php line 25): true when some key of
the array is a string. -/
def isAssoc (a : PArr) : Bool :=
  a.any fun p => match p.1 with
    | Key.str _ => true
    | Key.int _ => false

/-- `array_diff_key($a1, $a)`: the entries of `a1` whose keys do not occur in
`a`, in `a1`'s order. -/
def arrayDiffKey (a1 a : PArr) : PArr :=
  a1.filter fun p => !(keyExists p.1 a)

/-- `$a[$k] = $v` on a PHP array: overwrite the entry with key `k` in place if
it exists, otherwise append a new entry at the end. -/
def phpSetKey : PArr → Key → Val → PArr
  | [], k, v => [(k, v)]
  | (k', v') :: rest, k, v =>
    if k' = k then (k, v) :: rest else (k', v') :: phpSetKey rest k v

/-- One pass of PHP `array_merge` over a list of entries: integer keys are
renumbered sequentially from the counter `n`, string keys are assigned
(overwriting in place when already present). -/
def phpArrayMergeAux : PArr → Int → PArr → PArr
  | acc, _, [] => acc
  | acc, n, (Key.int _, v) :: rest => phpArrayMergeAux (acc ++ [(Key.int n, v)]) (n + 1) rest
  | acc, n, (Key.str s, v) :: rest => phpArrayMergeAux (phpSetKey acc (Key.str s) v) n rest

/-- PHP `array_merge($a, $b)`: processes the entries of `a` then of `b` with a
single running integer counter. -/
def phpArrayMerge (a b : PArr) : PArr :=
  phpArrayMergeAux [] 0 (a ++ b)

mutual

/-- The body of the `foreach` of `Config::arrayReplaceSanely`
(src/includes/Config.php lines 44–54) for a key present in both arrays:
`v` is the base value, `v1` the overlay value.  When `v` is an associative
array PHP recurses into `arrayReplaceSanely($array[$key], $array1[$key])`;
when `v1` is then not an array that call faults (PHP 8 `array_key_exists`
TypeError), which we model as `none`.  In every other case the overlay value
is taken verbatim (the `default:` branch). -/
def mergeValue : Val → Val → Option Val
  | Val.arr sub, v1 =>
    if isAssoc sub then
      match v1 with
      | Val.arr sub1 =>
        (mergeEntries sub sub1).map fun ne =>
          Val.arr (phpArrayMerge ne (arrayDiffKey sub1 sub))
      | _ => none
    else some v1
  | Val.null, v1 => some v1
  | Val.bool _, v1 => some v1
  | Val.int _, v1 => some v1
  | Val.str _, v1 => some v1

/-- The `foreach` loop of `Config::arrayReplaceSanely`
(src/includes/Config.php lines 42–58): rebuilds the base array entry by
entry, replacing values of keys that also occur in the overlay `a1`. -/
def mergeEntries : PArr → PArr → Option PArr
  | [], _ => some []
  | (k, v) :: rest, a1 =>
    match lookupVal k a1 with
    | some v1 => (mergeValue v v1).bind fun w =>
        (mergeEntries rest a1).map fun t => (k, w) :: t
    | none => (mergeEntries rest a1).map fun t => (k, v) :: t

end

/-- `Config::arrayReplaceSanely($array, $array1)`
(src/includes/Config.php lines 39–60): rebuild `$array`'s entries, replacing
values by `$array1`'s (recursively for associative arrays), then
`array_merge` the result with `array_diff_key($array1, $array)`. -/
def mergeSanely (a a1 : PArr) : Option PArr :=
  (mergeEntries a a1).map fun ne => phpArrayMerge ne (arrayDiffKey a1 a)

/-- A base value that is a scalar or a positional (non-associative) array is
replaced by the overlay value verbatim. -/
def atomicVal : Val → Bool
  | Val.arr sub => !(isAssoc sub)
  | _ => true

/-- `true` iff the key is a string key. -/
def isStrKey : Key → Bool
  | Key.str _ => true
  | Key.int _ => false

/-- All keys of the array are string keys. -/
def allStrKeys (a : PArr) : Bool :=
  a.all fun p => isStrKey p.1

/-- The keys of the array are pairwise distinct (as they always are in a real
PHP array). -/
def nodupKeys : PArr → Bool
  | [] => true
  | p :: rest => !(keyExists p.1 rest) && nodupKeys rest

mutual

/-- A value of a valid configuration tree (spec §3 data model): a scalar, a
positional sequence (left opaque), or a nested associative mapping that is
itself a valid tree. -/
def validVal : Val → Bool
  | Val.arr sub =>
    if isAssoc sub then allStrKeys sub && nodupKeys sub && validEntries sub
    else true
  | Val.null => true
  | Val.bool _ => true
  | Val.int _ => true
  | Val.str _ => true

/-- All entry values satisfy `validVal`. -/
def validEntries : PArr → Bool
  | [] => true
  | (_, v) :: rest => validVal v && validEntries rest

end

/-- A valid configuration tree (spec §3): a string-keyed mapping with
pairwise-distinct keys whose values are scalars, positional sequences, or
nested valid trees. -/
def validTree (a : PArr) : Bool :=
  allStrKeys a && nodupKeys a && validEntries a

mutual

/-- The per-entry update of PHP `array_replace_recursive`: when both the old
and the new value are arrays it recurses, otherwise the new value wins. -/
def replaceRecValue : Val → Val → Val
  | old, Val.arr subb =>
    match old with
    | Val.arr suba => Val.arr (replaceRecEntries suba subb)
    | _ => Val.arr subb
  | _, Val.null => Val.null
  | _, Val.bool b => Val.bool b
  | _, Val.int n => Val.int n
  | _, Val.str s => Val.str s

/-- PHP `array_replace_recursive($a, $b)`: walk `b`'s entries and assign each
into `a` (recursively when both values are arrays); keys of `a` keep their
positions, `b`-only keys are appended, nothing is renumbered. -/
def replaceRecEntries : PArr → PArr → PArr
  | a, [] => a
  | a, (k, v) :: rest =>
    replaceRecEntries
      (phpSetKey a k
        (match lookupVal k a with
         | some old => replaceRecValue old v
         | none => v))
      rest

end

/-- `array_replace_recursive($a, $b)` as used at src/includes/Config.php
line 100 for the URL-override layer. -/
def arrayReplaceRecursive (a b : PArr) : PArr :=
  replaceRecEntries a b

/-- Modelled from the spec: the repository's `Campaign` class
(`Campaign::newFromName`, `Campaign::getIsEnabled`,
`Campaign::getParsedConfig`) is not under src/; per spec §6, the campaign
lookup returns either "not found/disabled" or a parsed configuration
override tree. -/
structure Campaign where
  isEnabled : Bool
  parsedConfig : PArr

/-- The process environment of `Config`: the default config file contents,
the campaign store (`Campaign::newFromName` returning `false` is modelled as
`none`), and the static `$urlConfig`. -/
structure ConfigEnv where
  defaultConfig : PArr
  campaigns : String → Option Campaign
  urlConfig : PArr

/-- `Config::getCampaignConfig` (src/includes/Config.php lines 153–163):
the campaign's parsed config when it exists and is enabled, otherwise the
empty array. -/
def getCampaignConfig (env : ConfigEnv) (campaignName : Option String) : PArr :=
  match campaignName with
  | some name =>
    match env.campaigns name with
    | some c => if c.isEnabled then c.parsedConfig else []
    | none => []
  | none => []

/-- The mutable process state read and written by `Config::getConfig`: the
global `$wgUploadWizardConfig` and the static `$mergedConfig` flag. -/
structure ConfigState where
  wgUploadWizardConfig : PArr
  mergedConfig : Bool

/-- `Config::getConfig` (src/includes/Config.php lines 81–101), as an
explicit state-passing function: merge the defaults into the global once
(memoized via `$mergedConfig`), merge the campaign override *into the
global* when a campaign name is given, and return the global overlaid with
the URL config (not written back).  `none` models a PHP TypeError escaping
from `arrayReplaceSanely`. -/
def getConfig (env : ConfigEnv) (campaignName : Option String) (s : ConfigState) :
    Option (PArr × ConfigState) :=
  let step1 : Option ConfigState :=
    if s.mergedConfig then some s
    else (mergeSanely env.defaultConfig s.wgUploadWizardConfig).map
      fun m => { wgUploadWizardConfig := m, mergedConfig := true }
  step1.bind fun s1 =>
    let step2 : Option ConfigState :=
      match campaignName with
      | some _ =>
        (mergeSanely s1.wgUploadWizardConfig (getCampaignConfig env campaignName)).map
          fun m => { s1 with wgUploadWizardConfig := m }
      | none => some s1
    step2.map fun s2 =>
      (arrayReplaceRecursive s2.wgUploadWizardConfig env.urlConfig, s2)

/-- A concrete environment: one default setting, one enabled campaign
`"camp"` adding the key `"b"`, no URL overrides. -/
def demoEnv : ConfigEnv where
  defaultConfig := [(Key.str "a", Val.int 1)]
  campaigns := fun n =>
    if n = "camp" then some ⟨true, [(Key.str "b", Val.int 2)]⟩ else none
  urlConfig := []

/-- JavaScript `String.prototype.trim`: drop leading and trailing whitespace
(modelled on the string's character list so that it is executable). -/
def jsTrim (s : String) : String :=
  ⟨((s.data.dropWhile Char.isWhitespace).reverse.dropWhile Char.isWhitespace).reverse⟩

/-- A license definition from the global registry
`mw.UploadWizard.config.licenses` (read via
`uw.LicenseGroup.prototype.getLicenseInfo`): only the `templates` attribute
matters for markup generation. -/
structure LicenseProps where
  templates : Option (List String)

/-- The global license registry: license identifier to its definition, or
`none` for an unknown license. -/
abbrev Registry := String → Option LicenseProps

/-- The `uw.LicenseGroup` configuration attributes used by markup generation
(src/resources/uw.LicenseGroup.js lines 310–326). -/
structure GroupConfig where
  prependTemplates : Option (List String)
  template : Option String

/-- `uw.LicenseGroup.prototype.getTemplates` (lines 294–299): the license's
declared template list, or the singleton of the license name when it
declares none; `none` when the license is not in the registry (the JS would
throw reading `.templates` of `undefined`). -/
def getTemplates (reg : Registry) (name : String) : Option (List String) :=
  (reg name).map fun props =>
    match props.templates with
    | none => [name]
    | some ts => ts

/-- The `prependTemplates` loop of `getLicenceWikiText` (lines 313–317):
`forEach` over the configured list, each entry pushed onto the front of the
template list with `unshift`. -/
def applyPrepends (cfg : GroupConfig) (ts : List String) : List String :=
  match cfg.prependTemplates with
  | some ps => ps.foldl (fun templates t => t :: templates) ts
  | none => ts

/-- `uw.LicenseGroup.prototype.getLicenceWikiText` (lines 310–326): get the
license's templates, apply `prependTemplates`, optionally collapse into one
wrapper invocation joined by `|`, wrap each remaining name in braces, and
concatenate. -/
def getLicenceWikiText (cfg : GroupConfig) (reg : Registry) (name : String) :
    Option String :=
  (getTemplates reg name).map fun ts0 =>
    let ts1 := applyPrepends cfg ts0
    let ts2 :=
      match cfg.template with
      | some w => [String.intercalate "|" (w :: ts1)]
      | none => ts1
    String.join (ts2.map fun t => "\x7b\x7b" ++ t ++ "\x7d\x7d")

/-- The value stored by `getValue` for a selected license `name`: the JS
expression `!this.customInputs[name] || this.customInputs[name].getValue()`
evaluates to the boolean `true` (no custom input) or to the input's string
value (`false` is impossible: when the input exists the left operand is
`false` and `||` yields the right operand). -/
inductive SelVal where
  | bool : Bool → SelVal
  | str : String → SelVal
deriving DecidableEq, BEq, Repr

def selValueFor (customInputs : String → Option String) (name : String) : SelVal :=
  match customInputs name with
  | none => SelVal.bool true
  | some s => SelVal.str s

inductive GroupType where
  | radio
  | checkbox
deriving DecidableEq, Repr

/-- The widget state observed by `uw.LicenseGroup.prototype.getValue`
(lines 227–246): the group type, the selected item(s) as reported by
`findSelectedItem(s)`, and the current values of the custom text inputs
(`none` for a license with no custom input widget). -/
structure GroupState where
  type : GroupType
  radioSelected : Option String
  checkboxSelected : List String
  customInputs : String → Option String

/-- `uw.LicenseGroup.prototype.getValue` (lines 227–246). -/
def getValue (st : GroupState) : List (String × SelVal) :=
  match st.type with
  | GroupType.radio =>
    match st.radioSelected with
    | some name => [(name, selValueFor st.customInputs name)]
    | none => []
  | GroupType.checkbox =>
    st.checkboxSelected.map fun name => (name, selValueFor st.customInputs name)

/-- Whether a license is currently selected in the widget state. -/
def selectedInB (st : GroupState) (name : String) : Bool :=
  match st.type with
  | GroupType.radio => st.radioSelected == some name
  | GroupType.checkbox => st.checkboxSelected.any fun x => x == name

/-- Lookup in a selection mapping. -/
def lookupSel (name : String) (l : List (String × SelVal)) : Option SelVal :=
  (l.find? fun p => p.1 == name).map Prod.snd

/-- The per-license blocks of `uw.LicenseGroup.prototype.getWikiText`
(lines 192–206): for each selected license, the license markup, plus a
newline and the trimmed custom text when the selection value is a string;
`none` when some license is unknown to the registry (the JS callback would
throw). -/
def wikiTextBlocks (cfg : GroupConfig) (reg : Registry) :
    List (String × SelVal) → Option (List String)
  | [] => some []
  | p :: rest =>
    (getLicenceWikiText cfg reg p.1).bind fun w =>
      (wikiTextBlocks cfg reg rest).map fun ws =>
        (match p.2 with
         | SelVal.str s => w ++ "\n" ++ jsTrim s
         | SelVal.bool _ => w) :: ws

/-- `uw.LicenseGroup.prototype.getWikiText` (lines 192–206), as a function of
the selection mapping returned by `getValue` (`Object.keys` iterates a JS
object's non-integer-like string keys in insertion order, which the
association list preserves): join the per-license blocks with no separator
and trim. -/
def getWikiText (cfg : GroupConfig) (reg : Registry)
    (values : List (String × SelVal)) : Option String :=
  (wikiTextBlocks cfg reg values).map fun ws => jsTrim (String.join ws)

/-- The spec's wording of `renderSelection` (spec §4.2): per selected
license, in selection order, the expanded markup followed — for
string-valued entries — by a newline and the trimmed custom text;
all blocks concatenated with no separator and the result trimmed. -/
def renderSelectionSpec (cfg : GroupConfig) (reg : Registry)
    (selection : List (String × SelVal)) : String :=
  jsTrim (String.join (selection.map fun p =>
    (match getLicenceWikiText cfg reg p.1 with
     | some t => t
     | none => "") ++
    (match p.2 with
     | SelVal.str s => "\n" ++ jsTrim s
     | SelVal.bool _ => "")))

/-- The recursion of `arrayReplaceSanely` into an associative sub-array is
exactly `mergeSanely` of the two sub-arrays. -/
theorem mergeValue_assoc_arr (sub sub1 : PArr) (h : isAssoc sub = true) :
    mergeValue (Val.arr sub) (Val.arr sub1) = (mergeSanely sub sub1).map Val.arr := by
  rw [mergeValue, if_pos h, mergeSanely]
  cases mergeEntries sub sub1 <;> rfl

theorem mergeValue_atomic (v v1 : Val) (h : atomicVal v = true) :
    mergeValue v v1 = some v1 := by
  cases v with
  | arr sub =>
    have hna : isAssoc sub = false := by
      simpa [atomicVal] using h
    cases v1 <;> simp [mergeValue, hna]
  | null => rfl
  | bool b => rfl
  | int n => rfl
  | str s => rfl

theorem keyExists_eq_false_iff (k : Key) (a : PArr) :
    keyExists k a = false ↔ ∀ p ∈ a, p.1 ≠ k := by
  simp [keyExists]

theorem keyExists_eq_true_iff (k : Key) (a : PArr) :
    keyExists k a = true ↔ k ∈ a.map Prod.fst := by
  simp only [keyExists, List.any_eq_true, beq_iff_eq, List.mem_map]

theorem nodupKeys_iff_nodup (a : PArr) :
    nodupKeys a = true ↔ (a.map Prod.fst).Nodup := by
  induction a with
  | nil => simp [nodupKeys]
  | cons p rest ih =>
    simp only [nodupKeys, Bool.and_eq_true, List.map_cons, List.nodup_cons, ih,
      Bool.not_eq_true', keyExists_eq_false_iff]
    constructor
    · rintro ⟨h1, h2⟩
      refine ⟨?_, h2⟩
      intro hmem
      rcases List.mem_map.mp hmem with ⟨q, hq, hfst⟩
      exact h1 q hq hfst
    · rintro ⟨h1, h2⟩
      refine ⟨?_, h2⟩
      intro q hq hfst
      exact h1 (List.mem_map.mpr ⟨q, hq, hfst⟩)

theorem lookupVal_cons (k k' : Key) (v : Val) (rest : PArr) :
    lookupVal k ((k', v) :: rest) =
      if k' = k then some v else lookupVal k rest := by
  by_cases h : k' = k <;> simp [lookupVal, List.find?_cons, h]

theorem lookupVal_isSome_of_keyExists (k : Key) (a : PArr)
    (h : keyExists k a = true) : (a.find? fun p => p.1 == k).isSome := by
  rw [List.find?_isSome]
  simpa [keyExists, List.any_eq_true] using h

theorem keyExists_of_lookupVal (k : Key) (a : PArr) (v : Val)
    (h : lookupVal k a = some v) : keyExists k a = true := by
  simp only [lookupVal, Option.map_eq_some'] at h
  rcases h with ⟨p, hp, _⟩
  have := List.mem_of_find?_eq_some hp
  have hk := List.find?_some hp
  simp only [keyExists, List.any_eq_true]
  exact ⟨p, this, hk⟩

theorem lookupVal_append_left (k : Key) (a b : PArr)
    (h : keyExists k a = true) : lookupVal k (a ++ b) = lookupVal k a := by
  have hs := lookupVal_isSome_of_keyExists k a h
  rcases Option.isSome_iff_exists.mp hs with ⟨p, hp⟩
  simp [lookupVal, List.find?_append, hp]

/-- `$a[$k] = $v` appends when the key is absent. -/
theorem phpSetKey_of_not_exists (a : PArr) (k : Key) (v : Val)
    (h : keyExists k a = false) : phpSetKey a k v = a ++ [(k, v)] := by
  induction a with
  | nil => rfl
  | cons p rest ih =>
    rw [keyExists_eq_false_iff] at h
    have hne : p.1 ≠ k := h p (by simp)
    have hrest : keyExists k rest = false := by
      rw [keyExists_eq_false_iff]
      intro q hq
      exact h q (by simp [hq])
    cases p with
    | mk k' v' =>
      simp only [phpSetKey, if_neg hne, List.cons_append, List.cons.injEq, true_and]
      exact ih hrest

/-- Processing all-string-keyed entries whose keys are fresh for the
accumulator just appends them. -/
theorem phpArrayMergeAux_append (xs : PArr) : ∀ acc n,
    (∀ p ∈ xs, isStrKey p.1 = true) →
    nodupKeys xs = true →
    (∀ p ∈ xs, keyExists p.1 acc = false) →
    phpArrayMergeAux acc n xs = acc ++ xs := by
  induction xs with
  | nil => intro acc n _ _ _; simp [phpArrayMergeAux]
  | cons p rest ih =>
    intro acc n hstr hnd hfresh
    obtain ⟨k, v⟩ := p
    cases k with
    | int m => exact absurd (hstr (Key.int m, v) (by simp)) (by simp [isStrKey])
    | str s =>
      rw [phpArrayMergeAux,
        phpSetKey_of_not_exists acc (Key.str s) v (hfresh (Key.str s, v) (by simp))]
      have hnd' : nodupKeys rest = true := by
        simp only [nodupKeys, Bool.and_eq_true] at hnd
        exact hnd.2
      have hk : keyExists (Key.str s) rest = false := by
        simp only [nodupKeys, Bool.and_eq_true, Bool.not_eq_true'] at hnd
        exact hnd.1
      rw [ih (acc ++ [(Key.str s, v)]) n
        (fun q hq => hstr q (by simp [hq])) hnd'
        (fun q hq => ?_)]
      · simp
      · have h1 : keyExists q.1 acc = false := hfresh q (by simp [hq])
        have h2 : q.1 ≠ Key.str s := by
          rw [keyExists_eq_false_iff] at hk
          exact hk q hq
        simp [keyExists, List.any_append] at h1 ⊢
        exact ⟨h1, fun h => h2 h.symm⟩

/-- `array_merge` of all-string-keyed arrays with pairwise distinct keys is
plain concatenation. -/
theorem phpArrayMerge_append (a b : PArr)
    (hstr : allStrKeys (a ++ b) = true)
    (hnd : nodupKeys (a ++ b) = true) :
    phpArrayMerge a b = a ++ b := by
  have := phpArrayMergeAux_append (a ++ b) [] 0
    (by intro p hp; exact (List.all_eq_true.mp hstr) p hp)
    hnd
    (by intro p _; rfl)
  simpa [phpArrayMerge] using this

/-- The `foreach` of `arrayReplaceSanely` keeps the base array's keys,
in order. -/
theorem mergeEntries_keys (a : PArr) : ∀ a1 l,
    mergeEntries a a1 = some l → l.map Prod.fst = a.map Prod.fst := by
  induction a with
  | nil =>
    intro a1 l h
    rw [mergeEntries] at h
    cases h
    rfl
  | cons p rest ih =>
    intro a1 l h
    obtain ⟨k, v⟩ := p
    rw [mergeEntries] at h
    cases hl : lookupVal k a1 with
    | some v1 =>
      rw [hl] at h
      simp only [Option.bind_eq_some, Option.map_eq_some'] at h
      obtain ⟨w, _, t, ht, rfl⟩ := h
      simp [ih a1 t ht]
    | none =>
      rw [hl] at h
      simp only [Option.map_eq_some'] at h
      obtain ⟨t, ht, rfl⟩ := h
      simp [ih a1 t ht]

/-- Looking up, in the rebuilt base array, a key present in both inputs gives
the result of `mergeValue` on the two values at that key (which must have
succeeded for the whole loop to succeed). -/
theorem mergeEntries_lookup_both (a : PArr) : ∀ a1 l k v v1,
    mergeEntries a a1 = some l →
    lookupVal k a = some v →
    lookupVal k a1 = some v1 →
    ∃ w, mergeValue v v1 = some w ∧ lookupVal k l = some w := by
  induction a with
  | nil => intro a1 l k v v1 _ hv; simp [lookupVal] at hv
  | cons p rest ih =>
    intro a1 l k v v1 h hv hv1
    obtain ⟨k', v'⟩ := p
    rw [mergeEntries] at h
    by_cases hk : k' = k
    · subst hk
      rw [hv1] at h
      simp only [Option.bind_eq_some, Option.map_eq_some'] at h
      obtain ⟨w', hw', t, ht, rfl⟩ := h
      rw [lookupVal_cons] at hv
      simp only [if_pos rfl] at hv
      cases hv
      refine ⟨w', hw', ?_⟩
      rw [lookupVal_cons, if_pos rfl]
    · rw [lookupVal_cons, if_neg hk] at hv
      cases hl : lookupVal k' a1 with
      | some u1 =>
        rw [hl] at h
        simp only [Option.bind_eq_some, Option.map_eq_some'] at h
        obtain ⟨w', _, t, ht, rfl⟩ := h
        obtain ⟨w, hw, hlook⟩ := ih a1 t k v v1 ht hv hv1
        refine ⟨w, hw, ?_⟩
        rw [lookupVal_cons, if_neg hk]
        exact hlook
      | none =>
        rw [hl] at h
        simp only [Option.map_eq_some'] at h
        obtain ⟨t, ht, rfl⟩ := h
        obtain ⟨w, hw, hlook⟩ := ih a1 t k v v1 ht hv hv1
        refine ⟨w, hw, ?_⟩
        rw [lookupVal_cons, if_neg hk]
        exact hlook

theorem allStrKeys_iff (a : PArr) :
    allStrKeys a = true ↔ ∀ k ∈ a.map Prod.fst, isStrKey k = true := by
  simp [allStrKeys, List.all_eq_true]

theorem mem_arrayDiffKey (p : Key × Val) (a1 a : PArr) :
    p ∈ arrayDiffKey a1 a ↔ p ∈ a1 ∧ keyExists p.1 a = false := by
  simp [arrayDiffKey, List.mem_filter]

theorem arrayDiffKey_keys (a1 a : PArr) :
    (arrayDiffKey a1 a).map Prod.fst =
      (a1.map Prod.fst).filter fun k => !(keyExists k a) := by
  induction a1 with
  | nil => rfl
  | cons q rest ih =>
    by_cases hq : keyExists q.1 a
    · simp [arrayDiffKey, List.filter_cons, hq] at ih ⊢
      exact ih
    · simp only [Bool.not_eq_true] at hq
      simp [arrayDiffKey, List.filter_cons, hq] at ih ⊢
      exact ih

theorem arrayDiffKey_keys_sublist (a1 a : PArr) :
    ((arrayDiffKey a1 a).map Prod.fst).Sublist (a1.map Prod.fst) := by
  rw [arrayDiffKey_keys]
  exact List.filter_sublist _

/-- For string-keyed inputs with distinct keys, `arrayReplaceSanely` is the
rebuilt base array followed by the overlay-only entries: the final
`array_merge` is plain concatenation. -/
theorem mergeSanely_decompose (base overlay r : PArr)
    (hstrB : allStrKeys base = true) (hstrO : allStrKeys overlay = true)
    (hndB : nodupKeys base = true) (hndO : nodupKeys overlay = true)
    (hr : mergeSanely base overlay = some r) :
    ∃ ne, mergeEntries base overlay = some ne ∧
      ne.map Prod.fst = base.map Prod.fst ∧
      r = ne ++ arrayDiffKey overlay base ∧
      ((ne ++ arrayDiffKey overlay base).map Prod.fst).Nodup := by
  rw [mergeSanely] at hr
  simp only [Option.map_eq_some'] at hr
  obtain ⟨ne, hne, rfl⟩ := hr
  have hkeys : ne.map Prod.fst = base.map Prod.fst := mergeEntries_keys base overlay ne hne
  have hstrNe : allStrKeys ne = true := by
    rw [allStrKeys_iff, hkeys]
    exact (allStrKeys_iff base).mp hstrB
  have hstrD : allStrKeys (arrayDiffKey overlay base) = true := by
    rw [allStrKeys_iff]
    intro k hk
    have := (arrayDiffKey_keys_sublist overlay base).mem hk
    exact (allStrKeys_iff overlay).mp hstrO k this
  have hndNe : (ne.map Prod.fst).Nodup := by
    rw [hkeys]
    exact (nodupKeys_iff_nodup base).mp hndB
  have hndD : ((arrayDiffKey overlay base).map Prod.fst).Nodup :=
    ((nodupKeys_iff_nodup overlay).mp hndO).sublist (arrayDiffKey_keys_sublist overlay base)
  have hdisj : List.Disjoint (ne.map Prod.fst) ((arrayDiffKey overlay base).map Prod.fst) := by
    intro k hk hkd
    rcases List.mem_map.mp hkd with ⟨q, hq, rfl⟩
    have hfalse := ((mem_arrayDiffKey q overlay base).mp hq).2
    rw [hkeys] at hk
    have htrue : keyExists q.1 base = true := (keyExists_eq_true_iff q.1 base).mpr hk
    rw [htrue] at hfalse
    cases hfalse
  have hnodup : ((ne ++ arrayDiffKey overlay base).map Prod.fst).Nodup := by
    rw [List.map_append]
    exact List.Nodup.append hndNe hndD hdisj
  refine ⟨ne, hne, hkeys, ?_, hnodup⟩
  apply phpArrayMerge_append
  · simp only [allStrKeys, List.all_append, Bool.and_eq_true]
    exact ⟨hstrNe, hstrD⟩
  · rw [nodupKeys_iff_nodup, List.map_append]
    exact List.Nodup.append hndNe hndD hdisj

/-- C1: for configuration mappings `base` and `overlay` (string keys, pairwise
distinct, as in any real configuration tree) and any key `k` present in both
whose `base` value is a scalar or a positional (non-associative) sequence,
`mergeSanely base overlay` maps `k` to `overlay`'s value at `k` verbatim. -/
theorem claim1_right_bias_on_scalars (base overlay r : PArr) (k : Key) (v w : Val)
    (hstrB : allStrKeys base = true) (hstrO : allStrKeys overlay = true)
    (hndB : nodupKeys base = true) (hndO : nodupKeys overlay = true)
    (hv : lookupVal k base = some v) (hatom : atomicVal v = true)
    (hw : lookupVal k overlay = some w)
    (hr : mergeSanely base overlay = some r) :
    lookupVal k r = some w := by
  obtain ⟨ne, hne, hkeys, rfl, _⟩ :=
    mergeSanely_decompose base overlay r hstrB hstrO hndB hndO hr
  obtain ⟨w', hw', hlook⟩ := mergeEntries_lookup_both base overlay ne k v w hne hv hw
  rw [mergeValue_atomic v w hatom] at hw'
  cases hw'
  have hkx : keyExists k ne = true := keyExists_of_lookupVal k ne w hlook
  rw [lookupVal_append_left k ne (arrayDiffKey overlay base) hkx]
  exact hlook

/-- Witness for C1 at a concrete input: the base value at `"b"` is a
positional sequence, so the overlay's value replaces it wholesale. -/
theorem claim1_right_bias_on_scalars_witness :
    lookupVal (Key.str "b")
      [(Key.str "a", Val.int 1), (Key.str "b", Val.arr [(Key.int 0, Val.int 9)]),
       (Key.str "c", Val.str "x")] = some (Val.arr [(Key.int 0, Val.int 9)]) :=
  claim1_right_bias_on_scalars
    [(Key.str "a", Val.int 1),
     (Key.str "b", Val.arr [(Key.int 0, Val.int 1), (Key.int 1, Val.int 2)])]
    [(Key.str "b", Val.arr [(Key.int 0, Val.int 9)]), (Key.str "c", Val.str "x")]
    [(Key.str "a", Val.int 1), (Key.str "b", Val.arr [(Key.int 0, Val.int 9)]),
     (Key.str "c", Val.str "x")]
    (Key.str "b") (Val.arr [(Key.int 0, Val.int 1), (Key.int 1, Val.int 2)])
    (Val.arr [(Key.int 0, Val.int 9)])
    rfl rfl rfl rfl rfl rfl rfl rfl

/-- C2: for configuration mappings `base` and `overlay` and any key `k` at
which both carry associative mappings, the merged result at `k` is the
recursive merge of the two sub-mappings. -/
theorem claim2_recursive_merge_on_assoc (base overlay r : PArr) (k : Key)
    (sub sub1 : PArr)
    (hstrB : allStrKeys base = true) (hstrO : allStrKeys overlay = true)
    (hndB : nodupKeys base = true) (hndO : nodupKeys overlay = true)
    (hv : lookupVal k base = some (Val.arr sub)) (hassoc : isAssoc sub = true)
    (hv1 : lookupVal k overlay = some (Val.arr sub1)) (_hassoc1 : isAssoc sub1 = true)
    (hr : mergeSanely base overlay = some r) :
    ∃ m, mergeSanely sub sub1 = some m ∧ lookupVal k r = some (Val.arr m) := by
  obtain ⟨ne, hne, hkeys, rfl, _⟩ :=
    mergeSanely_decompose base overlay r hstrB hstrO hndB hndO hr
  obtain ⟨w, hw, hlook⟩ :=
    mergeEntries_lookup_both base overlay ne k (Val.arr sub) (Val.arr sub1) hne hv hv1
  rw [mergeValue_assoc_arr sub sub1 hassoc] at hw
  simp only [Option.map_eq_some'] at hw
  obtain ⟨m, hm, rfl⟩ := hw
  refine ⟨m, hm, ?_⟩
  have hkx : keyExists k ne = true := keyExists_of_lookupVal k ne (Val.arr m) hlook
  rw [lookupVal_append_left k ne (arrayDiffKey overlay base) hkx]
  exact hlook

/-- Witness for C2 at a concrete input: both values at `"a"` are associative
mappings and the result holds their recursive merge. -/
theorem claim2_recursive_merge_on_assoc_witness :
    ∃ m, mergeSanely [(Key.str "x", Val.int 1), (Key.str "y", Val.int 2)]
        [(Key.str "y", Val.int 5), (Key.str "z", Val.int 6)] = some m ∧
      lookupVal (Key.str "a")
        [(Key.str "a", Val.arr [(Key.str "x", Val.int 1), (Key.str "y", Val.int 5),
          (Key.str "z", Val.int 6)])] = some (Val.arr m) :=
  claim2_recursive_merge_on_assoc
    [(Key.str "a", Val.arr [(Key.str "x", Val.int 1), (Key.str "y", Val.int 2)])]
    [(Key.str "a", Val.arr [(Key.str "y", Val.int 5), (Key.str "z", Val.int 6)])]
    [(Key.str "a", Val.arr [(Key.str "x", Val.int 1), (Key.str "y", Val.int 5),
      (Key.str "z", Val.int 6)])]
    (Key.str "a")
    [(Key.str "x", Val.int 1), (Key.str "y", Val.int 2)]
    [(Key.str "y", Val.int 5), (Key.str "z", Val.int 6)]
    rfl rfl rfl rfl rfl rfl rfl rfl rfl

/-- C3: for configuration mappings `base` and `overlay`, the merged result's
key sequence is `base`'s keys in `base`'s order followed by the overlay-only
keys in `overlay`'s order, and every key of `base` or of `overlay` occurs in
it exactly once. -/
theorem claim3_union_completeness_and_order (base overlay r : PArr)
    (hstrB : allStrKeys base = true) (hstrO : allStrKeys overlay = true)
    (hndB : nodupKeys base = true) (hndO : nodupKeys overlay = true)
    (hr : mergeSanely base overlay = some r) :
    r.map Prod.fst = base.map Prod.fst ++
      ((overlay.map Prod.fst).filter fun k => !(keyExists k base)) ∧
    ∀ k, k ∈ base.map Prod.fst ∨ k ∈ overlay.map Prod.fst →
      (r.map Prod.fst).count k = 1 := by
  obtain ⟨ne, hne, hkeys, rfl, hnodup⟩ :=
    mergeSanely_decompose base overlay r hstrB hstrO hndB hndO hr
  have hkeysEq : (ne ++ arrayDiffKey overlay base).map Prod.fst =
      base.map Prod.fst ++
        ((overlay.map Prod.fst).filter fun k => !(keyExists k base)) := by
    rw [List.map_append, hkeys, arrayDiffKey_keys]
  refine ⟨hkeysEq, ?_⟩
  intro k hk
  apply List.count_eq_one_of_mem hnodup
  rw [hkeysEq]
  rcases hk with hk | hk
  · exact List.mem_append_left _ hk
  · by_cases hkb : keyExists k base = true
    · exact List.mem_append_left _ ((keyExists_eq_true_iff k base).mp hkb)
    · refine List.mem_append_right _ ?_
      rw [List.mem_filter]
      exact ⟨hk, by simp [Bool.not_eq_true] at hkb ⊢; exact hkb⟩

/-- Witness for C3 at a concrete input. -/
theorem claim3_union_completeness_and_order_witness :
    ([(Key.str "a", Val.int 1), (Key.str "b", Val.int 9),
      (Key.str "c", Val.int 7)] : PArr).map Prod.fst =
      ([(Key.str "a", Val.int 1), (Key.str "b", Val.int 2)] : PArr).map Prod.fst ++
        ((([(Key.str "b", Val.int 9), (Key.str "c", Val.int 7)] : PArr).map
          Prod.fst).filter fun k =>
            !(keyExists k [(Key.str "a", Val.int 1), (Key.str "b", Val.int 2)])) ∧
    ∀ k, k ∈ ([(Key.str "a", Val.int 1), (Key.str "b", Val.int 2)] : PArr).map Prod.fst ∨
        k ∈ ([(Key.str "b", Val.int 9), (Key.str "c", Val.int 7)] : PArr).map Prod.fst →
      (([(Key.str "a", Val.int 1), (Key.str "b", Val.int 9),
        (Key.str "c", Val.int 7)] : PArr).map Prod.fst).count k = 1 :=
  claim3_union_completeness_and_order
    [(Key.str "a", Val.int 1), (Key.str "b", Val.int 2)]
    [(Key.str "b", Val.int 9), (Key.str "c", Val.int 7)]
    [(Key.str "a", Val.int 1), (Key.str "b", Val.int 9), (Key.str "c", Val.int 7)]
    rfl rfl rfl rfl rfl

theorem validVal_arr_assoc (sub : PArr) (h : isAssoc sub = true) :
    validVal (Val.arr sub) = validTree sub := by
  rw [validVal, if_pos h, validTree]

theorem validEntries_iff (a : PArr) :
    validEntries a = true ↔ ∀ p ∈ a, validVal p.2 = true := by
  induction a with
  | nil => simp [validEntries]
  | cons p rest ih =>
    obtain ⟨k, v⟩ := p
    simp [validEntries, Bool.and_eq_true, ih]

/-- With pairwise-distinct keys, looking up an entry's key finds that
entry's value. -/
theorem lookupVal_self_of_nodup (a : PArr) (hnd : nodupKeys a = true) :
    ∀ p ∈ a, lookupVal p.1 a = some p.2 := by
  induction a with
  | nil => intro p hp; cases hp
  | cons q rest ih =>
    intro p hp
    obtain ⟨k', v'⟩ := q
    simp only [nodupKeys, Bool.and_eq_true, Bool.not_eq_true'] at hnd
    rcases List.mem_cons.mp hp with rfl | hp'
    · rw [lookupVal_cons, if_pos rfl]
    · have hne : k' ≠ p.1 := by
        rw [keyExists_eq_false_iff] at hnd
        intro h
        exact hnd.1 p hp' (h ▸ rfl)
      rw [lookupVal_cons, if_neg hne]
      exact ih hnd.2 p hp'

/-- When every entry of `a'` looks itself up in `a` and merges with itself to
itself, the rebuild loop reproduces `a'`. -/
theorem mergeEntries_self (a : PArr) : ∀ a' : PArr,
    (∀ p ∈ a', lookupVal p.1 a = some p.2) →
    (∀ p ∈ a', mergeValue p.2 p.2 = some p.2) →
    mergeEntries a' a = some a' := by
  intro a'
  induction a' with
  | nil => intro _ _; rw [mergeEntries]
  | cons p rest ih =>
    intro hlook hval
    obtain ⟨k, v⟩ := p
    have h1 : lookupVal k a = some v := hlook (k, v) (by simp)
    have h2 : mergeValue v v = some v := hval (k, v) (by simp)
    have h3 : mergeEntries rest a = some rest :=
      ih (fun q hq => hlook q (by simp [hq])) (fun q hq => hval q (by simp [hq]))
    rw [mergeEntries]
    simp [h1, h2, h3]

theorem arrayDiffKey_self (a : PArr) : arrayDiffKey a a = [] := by
  rw [arrayDiffKey, List.filter_eq_nil_iff]
  intro p hp
  have : keyExists p.1 a = true := by
    simp only [keyExists, List.any_eq_true]
    exact ⟨p, hp, by simp⟩
  simp [this]

theorem sizeOf_sub_lt_of_mem (a : PArr) (k : Key) (sub : PArr)
    (h : (k, Val.arr sub) ∈ a) : sizeOf sub < sizeOf a := by
  have h1 : sizeOf (k, Val.arr sub) < sizeOf a := List.sizeOf_lt_of_mem h
  have h2 : sizeOf sub < sizeOf (k, Val.arr sub) := by
    simp only [Prod.mk.sizeOf_spec, Val.arr.sizeOf_spec]
    omega
  omega

/-- `arrayReplaceSanely(x, x) == x` for valid configuration trees, proved by
strong induction on the size of the tree. -/
theorem mergeSanely_self_aux : ∀ n, ∀ a : PArr, sizeOf a ≤ n →
    validTree a = true → mergeSanely a a = some a := by
  intro n
  induction n with
  | zero =>
    intro a ha _
    exact absurd ha (by cases a <;> simp)
  | succ n ih =>
    intro a ha hvalid
    rw [validTree, Bool.and_eq_true, Bool.and_eq_true] at hvalid
    obtain ⟨⟨hstr, hnd⟩, hent⟩ := hvalid
    have hval : ∀ p ∈ a, mergeValue p.2 p.2 = some p.2 := by
      intro p hp
      have hv := (validEntries_iff a).mp hent p hp
      cases hv2 : p.2 with
      | arr sub =>
        by_cases hassoc : isAssoc sub = true
        · rw [mergeValue_assoc_arr sub sub hassoc]
          have hsub : validTree sub = true := by
            rw [hv2, validVal_arr_assoc sub hassoc] at hv
            exact hv
          have hlt : sizeOf sub < sizeOf a :=
            sizeOf_sub_lt_of_mem a p.1 sub (by rw [← hv2]; exact hp)
          rw [ih sub (by omega) hsub]
          rfl
        · exact mergeValue_atomic _ _ (by simp [atomicVal, hassoc])
      | null => rfl
      | bool b => rfl
      | int m => rfl
      | str s => rfl
    have hme : mergeEntries a a = some a :=
      mergeEntries_self a a (lookupVal_self_of_nodup a hnd) hval
    have hmerge : phpArrayMerge a [] = a := by
      have h := phpArrayMerge_append a [] (by simpa using hstr) (by simpa using hnd)
      simpa using h
    rw [mergeSanely, hme, arrayDiffKey_self, Option.map_some', hmerge]

/-- C7: `mergeSanely x x = x` for every valid configuration tree `x` (a
string-keyed mapping with distinct keys whose values are scalars, positional
sequences, or nested valid trees). -/
theorem claim7_idempotence (x : PArr) (hx : validTree x = true) :
    mergeSanely x x = some x :=
  mergeSanely_self_aux (sizeOf x) x le_rfl hx

/-- Witness for C7 at a concrete nested tree. -/
theorem claim7_idempotence_witness :
    mergeSanely
      [(Key.str "a", Val.arr [(Key.str "x", Val.int 1)]),
       (Key.str "b", Val.arr [(Key.int 0, Val.int 1), (Key.int 1, Val.int 2)]),
       (Key.str "c", Val.str "t")]
      [(Key.str "a", Val.arr [(Key.str "x", Val.int 1)]),
       (Key.str "b", Val.arr [(Key.int 0, Val.int 1), (Key.int 1, Val.int 2)]),
       (Key.str "c", Val.str "t")] =
    some
      [(Key.str "a", Val.arr [(Key.str "x", Val.int 1)]),
       (Key.str "b", Val.arr [(Key.int 0, Val.int 1), (Key.int 1, Val.int 2)]),
       (Key.str "c", Val.str "t")] :=
  claim7_idempotence
    [(Key.str "a", Val.arr [(Key.str "x", Val.int 1)]),
     (Key.str "b", Val.arr [(Key.int 0, Val.int 1), (Key.int 1, Val.int 2)]),
     (Key.str "c", Val.str "t")]
    rfl

/-- Rebuilding against an empty overlay copies every entry. -/
theorem mergeEntries_nil_overlay (a : PArr) : mergeEntries a [] = some a := by
  induction a with
  | nil => rfl
  | cons p rest ih =>
    obtain ⟨k, v⟩ := p
    rw [mergeEntries]
    have : lookupVal k ([] : PArr) = none := rfl
    rw [this, ih]
    rfl

theorem phpArrayMerge_nil_right (a : PArr) (hstr : allStrKeys a = true)
    (hnd : nodupKeys a = true) : phpArrayMerge a [] = a := by
  have h := phpArrayMerge_append a [] (by simpa using hstr) (by simpa using hnd)
  simpa using h

/-- Merging the empty overlay over a string-keyed array with distinct keys is
the identity. -/
theorem mergeSanely_nil_overlay (c : PArr) (hstr : allStrKeys c = true)
    (hnd : nodupKeys c = true) : mergeSanely c [] = some c := by
  rw [mergeSanely, mergeEntries_nil_overlay, Option.map_some']
  have hdiff : arrayDiffKey [] c = [] := rfl
  rw [hdiff, phpArrayMerge_nil_right c hstr hnd]

/-- C8: a missing or disabled campaign yields the empty override mapping
(no error), and layering that empty override via `mergeSanely` over any
configuration tree leaves the tree unchanged. -/
theorem claim8_missing_campaign_noop (env : ConfigEnv) (name : String)
    (hmiss : env.campaigns name = none ∨
      ∃ c, env.campaigns name = some c ∧ c.isEnabled = false)
    (conf : PArr) (hstr : allStrKeys conf = true) (hnd : nodupKeys conf = true) :
    getCampaignConfig env (some name) = [] ∧ mergeSanely conf [] = some conf := by
  constructor
  · rcases hmiss with h | ⟨c, hc, hdis⟩
    · rw [getCampaignConfig, h]
    · simp [getCampaignConfig, hc, hdis]
  · exact mergeSanely_nil_overlay conf hstr hnd

/-- Witness for C8: a campaign name unknown to the store yields the empty
override, which layers as a no-op over a small tree. -/
theorem claim8_missing_campaign_noop_witness :
    getCampaignConfig demoEnv (some "nosuch") = [] ∧
    mergeSanely [(Key.str "a", Val.int 1)] [] = some [(Key.str "a", Val.int 1)] :=
  claim8_missing_campaign_noop demoEnv "nosuch" (Or.inl rfl)
    [(Key.str "a", Val.int 1)] rfl rfl

/-- C9 counterexample: under `demoEnv`, a `getConfig` call with campaign
`"camp"` merges the campaign override into the stored global base, so a later
call with no campaign returns a configuration containing the campaign's key
`"b"` — whereas the same no-campaign call from the fresh state does not.
This refutes the claim that a call with a campaign name does not change what
a later call with no campaign returns. -/
theorem claim9_counterexample :
    (((getConfig demoEnv (some "camp") ⟨[], false⟩).bind fun p =>
        getConfig demoEnv none p.2).map fun p => keyExists (Key.str "b") p.1) =
      some true ∧
    ((getConfig demoEnv none ⟨[], false⟩).map fun p =>
        keyExists (Key.str "b") p.1) = some false :=
  ⟨rfl, rfl⟩

/-- C9 amended: the defaults+site merge is computed on the first call and
memoized; a call with no campaign name never alters the stored state (URL
layering is never written back); but a call with a campaign name merges the
campaign override into the stored global base, which persists into
subsequent calls. -/
theorem claim9_amended_memoization (env : ConfigEnv) (s : ConfigState) :
    (s.mergedConfig = true → ∀ r s', getConfig env none s = some (r, s') → s' = s) ∧
    (s.mergedConfig = false → ∀ r s', getConfig env none s = some (r, s') →
      mergeSanely env.defaultConfig s.wgUploadWizardConfig =
        some s'.wgUploadWizardConfig ∧ s'.mergedConfig = true) ∧
    (s.mergedConfig = true → ∀ name r s', getConfig env (some name) s = some (r, s') →
      mergeSanely s.wgUploadWizardConfig (getCampaignConfig env (some name)) =
        some s'.wgUploadWizardConfig ∧ s'.mergedConfig = true) := by
  refine ⟨?_, ?_, ?_⟩
  · intro h r s' hr
    rw [getConfig] at hr
    rw [h] at hr
    simp only [if_true, Option.some_bind, Option.map_some', Option.some.injEq,
      Prod.mk.injEq] at hr
    exact hr.2.symm
  · intro h r s' hr
    rw [getConfig] at hr
    rw [h] at hr
    simp only [Bool.false_eq_true, if_false, Option.bind_eq_some, Option.map_eq_some',
      Option.some.injEq, Prod.mk.injEq] at hr
    obtain ⟨s1, ⟨m, hm, hs1⟩, s2, hs12, hre, hss⟩ := hr
    subst_vars
    exact ⟨hm, rfl⟩
  · intro h name r s' hr
    rw [getConfig] at hr
    rw [h] at hr
    simp only [if_true, Option.some_bind, Option.map_eq_some', Option.some.injEq,
      Prod.mk.injEq] at hr
    obtain ⟨s2, ⟨m, hm, hs2⟩, _, hss⟩ := hr
    subst hs2
    subst hss
    exact ⟨hm, h⟩

/-- Witness for C9's amended statement, part (3): under `demoEnv`, a call with
campaign `"camp"` from a memoized state stores the campaign-merged base. -/
theorem claim9_amended_memoization_witness :
    mergeSanely [(Key.str "a", Val.int 1)] (getCampaignConfig demoEnv (some "camp")) =
      some [(Key.str "a", Val.int 1), (Key.str "b", Val.int 2)] ∧
    (⟨[(Key.str "a", Val.int 1), (Key.str "b", Val.int 2)], true⟩ :
      ConfigState).mergedConfig = true :=
  (claim9_amended_memoization demoEnv ⟨[(Key.str "a", Val.int 1)], true⟩).2.2 rfl "camp"
    [(Key.str "a", Val.int 1), (Key.str "b", Val.int 2)]
    ⟨[(Key.str "a", Val.int 1), (Key.str "b", Val.int 2)], true⟩ rfl

/-- C4: the `forEach`/`unshift` loop of `getLicenceWikiText` REVERSES the
order of `prependTemplates`.  Evaluating at the example of the function's own
doc comment (uw.LicenseGroup.js lines 16–17, which promises
`[ 'pre', 'pended' ]` on `[ 'fooLicense' ]` gives
"{{pre}}{{pended}}{{fooLicense}}") produces the reversed
"{{pended}}{{pre}}{{fooLicense}}" instead: the code contradicts its own
documentation and the spec's order-preservation requirement. -/
theorem claim4_prepend_order_reversed :
    getLicenceWikiText ⟨some ["pre", "pended"], none⟩
      (fun name => if name = "fooLicense" then some ⟨none⟩ else none)
      "fooLicense" =
      some "\x7b\x7bpended\x7d\x7d\x7b\x7bpre\x7d\x7d\x7b\x7bfooLicense\x7d\x7d" := rfl

/-- C5: when the group config's wrapper `template` is set, the produced
markup is a single brace invocation whose contents are the wrapper template
name followed by the remaining template names, joined by `|`. -/
theorem claim5_wrapper_template (cfg : GroupConfig) (reg : Registry)
    (name w : String) (ts0 : List String)
    (hw : cfg.template = some w) (hts : getTemplates reg name = some ts0) :
    getLicenceWikiText cfg reg name =
      some ("\x7b\x7b" ++ String.intercalate "|" (w :: applyPrepends cfg ts0) ++
        "\x7d\x7d") := by
  rw [getLicenceWikiText, hts, Option.map_some', hw]
  rfl

/-- Witness for C5 at the spec's example: registry entry
`cc-by-sa ↦ templates ["cc-by-sa-4.0"]` and group config
`template = "self"` yield "{{self|cc-by-sa-4.0}}". -/
theorem claim5_wrapper_template_witness :
    getLicenceWikiText ⟨none, some "self"⟩
      (fun name => if name = "cc-by-sa" then some ⟨some ["cc-by-sa-4.0"]⟩ else none)
      "cc-by-sa" = some "\x7b\x7bself|cc-by-sa-4.0\x7d\x7d" :=
  claim5_wrapper_template ⟨none, some "self"⟩
    (fun name => if name = "cc-by-sa" then some ⟨some ["cc-by-sa-4.0"]⟩ else none)
    "cc-by-sa" "self" ["cc-by-sa-4.0"] rfl rfl

/-- The blocks built by `getWikiText` are exactly the per-license blocks the
spec describes, in selection order, when every selected license is known. -/
theorem wikiTextBlocks_eq (cfg : GroupConfig) (reg : Registry) :
    ∀ sel : List (String × SelVal),
    (∀ p ∈ sel, ∃ t, getLicenceWikiText cfg reg p.1 = some t) →
    wikiTextBlocks cfg reg sel = some (sel.map fun p =>
      (match getLicenceWikiText cfg reg p.1 with
       | some t => t
       | none => "") ++
      (match p.2 with
       | SelVal.str s => "\n" ++ jsTrim s
       | SelVal.bool _ => "")) := by
  intro sel
  induction sel with
  | nil => intro _; rfl
  | cons p rest ih =>
    intro hknown
    obtain ⟨t, ht⟩ := hknown p (by simp)
    rw [wikiTextBlocks, ht, ih (fun q hq => hknown q (by simp [hq]))]
    cases p with
    | mk name v =>
      cases v with
      | str s => simp [ht, String.append_assoc]
      | bool b => simp [ht]

/-- C6: for a selection of registry-known licenses, `getWikiText` processes
the selected licenses in the selection's insertion order, appends — for each
string-valued entry — a newline and the trimmed custom text after that
license's markup, concatenates the blocks with no separator, and trims the
final result. -/
theorem claim6_render_selection (cfg : GroupConfig) (reg : Registry)
    (selection : List (String × SelVal))
    (hknown : ∀ p ∈ selection, ∃ t, getLicenceWikiText cfg reg p.1 = some t) :
    getWikiText cfg reg selection = some (renderSelectionSpec cfg reg selection) := by
  rw [getWikiText, wikiTextBlocks_eq cfg reg selection hknown, Option.map_some',
    renderSelectionSpec]

/-- Witness for C6 at the spec's custom-text round-trip example: the trimmed
custom text follows the template block after a newline and the result has no
trailing whitespace. -/
theorem claim6_render_selection_witness :
    getWikiText ⟨none, none⟩
      (fun name => if name = "custom-license" then some ⟨none⟩ else none)
      [("custom-license", SelVal.str "  my text  ")] =
      some "\x7b\x7bcustom-license\x7d\x7d\nmy text" :=
  claim6_render_selection ⟨none, none⟩
    (fun name => if name = "custom-license" then some ⟨none⟩ else none)
    [("custom-license", SelVal.str "  my text  ")]
    (by
      intro p hp
      rw [List.mem_singleton] at hp
      subst hp
      exact ⟨"\x7b\x7bcustom-license\x7d\x7d", rfl⟩)

/-- C10 counterexample: in a state where the selected license's custom input
holds the empty string, `getValue` maps the license to the empty string —
which is neither the boolean `true` nor a non-empty string, refuting the
claimed invariant. -/
theorem claim10_counterexample_empty_custom :
    getValue ⟨GroupType.radio, some "custom-license", [], fun _ => some ""⟩ =
      [("custom-license", SelVal.str "")] ∧
    (SelVal.str "" == SelVal.bool true) = false ∧ "".isEmpty = true :=
  ⟨rfl, rfl, rfl⟩

/-- C10 amended: `getValue` maps each selected license to the boolean `true`
(when it has no custom input) or to the string value of its custom input —
which may be empty — and never to `false`; no entry appears for an
unselected license. -/
theorem claim10_amended_selection_values (st : GroupState) :
    (∀ p ∈ getValue st, p.2 ≠ SelVal.bool false ∧
      (st.customInputs p.1 = none → p.2 = SelVal.bool true) ∧
      (∀ s, st.customInputs p.1 = some s → p.2 = SelVal.str s)) ∧
    (∀ p ∈ getValue st, selectedInB st p.1 = true) ∧
    (∀ name, selectedInB st name = false → lookupSel name (getValue st) = none) := by
  have hval : ∀ name, (selValueFor st.customInputs name ≠ SelVal.bool false ∧
      (st.customInputs name = none → selValueFor st.customInputs name = SelVal.bool true) ∧
      (∀ s, st.customInputs name = some s →
        selValueFor st.customInputs name = SelVal.str s)) := by
    intro name
    cases hc : st.customInputs name with
    | none => simp [selValueFor, hc]
    | some s => simp [selValueFor, hc]
  cases hty : st.type with
  | radio =>
    cases hsel : st.radioSelected with
    | none =>
      refine ⟨?_, ?_, ?_⟩ <;> simp [getValue, hty, hsel, lookupSel]
    | some name =>
      refine ⟨?_, ?_, ?_⟩
      · intro p hp
        simp only [getValue, hty, hsel, List.mem_singleton] at hp
        subst hp
        exact hval name
      · intro p hp
        simp only [getValue, hty, hsel, List.mem_singleton] at hp
        subst hp
        simp [selectedInB, hty, hsel]
      · intro other hother
        simp only [selectedInB, hty, hsel, beq_iff_eq, Option.some.injEq] at hother
        simp only [getValue, hty, hsel, lookupSel, List.find?_cons]
        have hne : (name == other) = false := by
          simpa using hother
        simp [hne]
  | checkbox =>
    refine ⟨?_, ?_, ?_⟩
    · intro p hp
      simp only [getValue, hty, List.mem_map] at hp
      obtain ⟨name, _, rfl⟩ := hp
      exact hval name
    · intro p hp
      simp only [getValue, hty, List.mem_map] at hp
      obtain ⟨name, hmem, rfl⟩ := hp
      simp only [selectedInB, hty, List.any_eq_true]
      exact ⟨name, hmem, by simp⟩
    · intro other hother
      simp only [selectedInB, hty, List.any_eq_false] at hother
      rw [lookupSel]
      have hfind : (getValue st).find? (fun p => p.1 == other) = none := by
        rw [List.find?_eq_none]
        intro p hp
        simp only [getValue, hty, List.mem_map] at hp
        obtain ⟨name, hmem, rfl⟩ := hp
        exact hother name hmem
      rw [hfind]
      rfl

/-- Witness for C10's amended statement: an unselected license has no entry
in the selection mapping. -/
theorem claim10_amended_selection_values_witness :
    lookupSel "other"
      (getValue ⟨GroupType.radio, some "lic", [], fun _ => none⟩) = none :=
  (claim10_amended_selection_values
    ⟨GroupType.radio, some "lic", [], fun _ => none⟩).2.2 "other" rfl

end UploadWizard
